import Mathlib

/-!
Verification development for the client-side branch-diff tool: an in-memory
virtual filesystem (`MemoryFS`), repository ingestion (`loadFilesIntoFs`),
a recursive tree walker (`listTreeFiles`) and the diff orchestrator
(`generateDiff`).  The JavaScript source is shallowly embedded: JS `Map` and
plain objects become insertion-ordered association lists, JS `Set` becomes an
insertion-ordered duplicate-free list, byte buffers become `List Nat`,
`async` control flow with `throw`/`try` becomes `Except`, and the external
collaborators (the git object reader `window.git`, the `diff` library and the
platform `TextDecoder`) are parameters, since the source consumes them as
black boxes.  JS recursion depth is modelled with an explicit fuel argument;
exhausting it is the analogue of the host stack overflowing.
-/

namespace BranchDiff

/-- Raw byte sequences (JS `Uint8Array` contents). -/
abbrev Bytes := List Nat

/-! ### Insertion-ordered maps and sets

JS `Map.set` / object property assignment update an existing key in place and
otherwise append; `Set.add` appends a missing element.  Iteration order is
insertion order, which these list models preserve. -/

/-- JS `Map.set` / `obj[k] = v`: replace in place, else append. -/
def assocSet {α : Type} : List (String × α) → String → α → List (String × α)
  | [], k, v => [(k, v)]
  | (k2, v2) :: rest, k, v =>
    if k2 = k then (k, v) :: rest else (k2, v2) :: assocSet rest k v

/-- JS `Map.get` / object property read (`undefined` becomes `none`). -/
def assocGet {α : Type} : List (String × α) → String → Option α
  | [], _ => none
  | (k2, v2) :: rest, k => if k2 = k then some v2 else assocGet rest k

/-- Keys of an association list, in insertion order (JS `Object.keys`). -/
def keysOf {α : Type} (m : List (String × α)) : List String := m.map Prod.fst

/-- JS `Set.add`: append the element unless already present. -/
def setAdd (s : List String) (x : String) : List String :=
  if x ∈ s then s else s ++ [x]

/-! ### Path normalization

The source normalizes with two regex replaces:
`replace(/\/+/g, s)` with a single slash (collapse duplicate-slash runs, used
by `readFile`/`writeFile`) and `replace(/\/+$/, empty)` with a root fallback
(strip trailing slashes, used by `mkdir`/`readdir`/`stat`). -/

/-- Collapse every run of consecutive slashes to a single slash
(JS `replace` of the global pattern slash-plus). -/
def collapseChars : List Char → List Char
  | [] => []
  | [c] => [c]
  | a :: b :: rest =>
    if a = '/' ∧ b = '/' then collapseChars (b :: rest)
    else a :: collapseChars (b :: rest)

/-- `String(path).replace` collapsing duplicate slashes. -/
def normalizePath (s : String) : String := String.mk (collapseChars s.data)

/-- Strip all trailing slashes (JS `replace` of the trailing slash-plus
pattern with the empty string). -/
def stripTrailingSlashes (s : String) : String :=
  String.mk ((s.data.reverse.dropWhile (fun c => c = '/')).reverse)

/-- `String(path).replace(trailing slashes) || root`. -/
def normalizeDirPath (s : String) : String :=
  let t := stripTrailingSlashes s
  if t = "" then "/" else t

/-- JS `split` on a slash: returns the (never empty) list of chunks between
slashes, empty chunks included. -/
def splitOnSlash : List Char → List (List Char)
  | [] => [[]]
  | c :: rest =>
    match splitOnSlash rest with
    | [] => if c = '/' then [[], []] else [[c]]
    | seg :: segs =>
      if c = '/' then [] :: seg :: segs else (c :: seg) :: segs

/-- `filePath.split(slash).filter(Boolean)`: the nonempty path segments. -/
def pathSegments (s : String) : List String :=
  ((splitOnSlash s.data).map (fun l => String.mk l)).filter (fun seg => seg ≠ "")

/-! ### The virtual filesystem -/

/-- The `MemoryFS` state: `files` is the `Map` from normalized path to raw
bytes, `dirs` the `Set` of recorded directory paths. -/
structure FSState where
  files : List (String × Bytes)
  dirs : List String
deriving DecidableEq

/-- The constructor state: no files, the root directory recorded. -/
def initFS : FSState := { files := [], dirs := ["/"] }

/-- `clear()`: drop all files and directories, re-add the root.  Its result
coincides with the constructor state. -/
def clearFS : FSState := { files := [], dirs := ["/"] }

/-- Errors thrown by the VFS: JS `Error` objects carrying a `code` field. -/
structure FSError where
  code : String
  message : String
deriving DecidableEq

/-- What `readFile` resolves with: a byte buffer, or decoded text when the
utf8 encoding option was requested. -/
inductive ReadResult where
  | bytes (data : Bytes)
  | text (s : String)
deriving DecidableEq

/-- `MemoryFS.promises.readFile(path, opts)`.  `path` is `none` for the JS
`undefined`/`null` inputs; `opts` carries the requested encoding, decoded by
the platform `TextDecoder` parameter `td`. -/
def fsReadFile (td : Bytes → String) (st : FSState) (path : Option String)
    (opts : Option String) : Except FSError ReadResult :=
  match path with
  | none => .error { code := "ENOENT", message := "ENOENT: path is undefined" }
  | some p =>
    let normalizedPath := normalizePath p
    match assocGet st.files normalizedPath with
    | none =>
      .error { code := "ENOENT"
               message := "ENOENT: no such file or directory, open " ++ normalizedPath }
    | some data =>
      if opts = some "utf8" then .ok (.text (td data)) else .ok (.bytes data)

/-- The JS loop body of `_addParentDirs`: starting from an accumulated
`current` prefix, record `current` extended with each segment but the last. -/
def parentDirsGo : String → List String → List String
  | _, [] => []
  | _, [_] => []
  | current, p :: rest => (current ++ "/" ++ p) :: parentDirsGo (current ++ "/" ++ p) rest

/-- The directory paths `_addParentDirs(filePath)` records: every proper
segment-prefix of the path, except the bare root. -/
def parentDirs (filePath : String) : List String :=
  parentDirsGo "" (pathSegments filePath)

/-- `MemoryFS._addParentDirs`: add each parent prefix to the `dirs` set. -/
def addParentDirs (dirs : List String) (filePath : String) : List String :=
  (parentDirs filePath).foldl setAdd dirs

/-- Data accepted by `writeFile`: a string (encoded with `TextEncoder`) or a
byte buffer. -/
inductive WriteData where
  | str (s : String)
  | bytes (b : Bytes)
deriving DecidableEq

/-- The platform `TextEncoder` (UTF-8 encoding). -/
def textEncode (s : String) : Bytes := s.toUTF8.toList.map (fun b => b.toNat)

/-- The bytes `writeFile` stores for the given data argument. -/
def writeDataBytes : WriteData → Bytes
  | .str s => textEncode s
  | .bytes b => b

/-- `MemoryFS.promises.writeFile(path, data)`: a `none` path returns without
effect; otherwise store the bytes at the duplicate-slash-collapsed path and
record every parent directory. -/
def fsWriteFile (st : FSState) (path : Option String) (data : WriteData) : FSState :=
  match path with
  | none => st
  | some p =>
    let normalizedPath := normalizePath p
    { files := assocSet st.files normalizedPath (writeDataBytes data)
      dirs := addParentDirs st.dirs normalizedPath }

/-- `MemoryFS.promises.mkdir(path)`: record the trailing-slash-stripped path
as a directory; never errors, no parents created. -/
def fsMkdir (st : FSState) (path : Option String) : FSState :=
  match path with
  | none => st
  | some p => { st with dirs := setAdd st.dirs (normalizeDirPath p) }

/-! ### Sequences of VFS mutations (for the reachable-state invariants) -/

/-- The mutating operations the invariant claims quantify over. -/
inductive FSOp where
  | write (path : Option String) (data : WriteData)
  | mkdir (path : Option String)

/-- Apply one operation. -/
def applyFSOp (st : FSState) : FSOp → FSState
  | .write p d => fsWriteFile st p d
  | .mkdir p => fsMkdir st p

/-- Run a sequence of operations left to right. -/
def runOps (st : FSState) (ops : List FSOp) : FSState := ops.foldl applyFSOp st

/-! ### Ancestor paths (specification-side notion)

The spec speaks of the ancestors of a stored path.  For a normalized
absolute slash-separated path with segments `s1 … sn` these are the root
together with the joins of every proper nonempty segment prefix. -/

/-- Join segments with slashes (no leading slash). -/
def joinSegs : List String → String
  | [] => ""
  | [s] => s
  | s :: rest => s ++ "/" ++ joinSegs rest

/-- Join segments as an absolute path. -/
def joinAbs : List String → String
  | [] => "/"
  | s :: rest => "/" ++ joinSegs (s :: rest)

/-- All ancestor paths of a path: the absolute joins of the proper segment
prefixes (the root included, the full path excluded). -/
def ancestorPaths (k : String) : List String :=
  ((pathSegments k).dropLast.inits).map joinAbs

/-! ### Ingestion (`loadFilesIntoFs`)

Uploaded files arrive as objects exposing `webkitRelativePath` and their raw
bytes (`file.arrayBuffer()`).  The module-level session holds the shared
`MemoryFS` and the `gitCache` object handed to every reader call. -/

/-- One entry of the upload input. -/
structure UploadFile where
  webkitRelativePath : String
  contents : Bytes
deriving DecidableEq

/-- The module-level mutable session: the VFS plus the reader cache (opaque
key-value entries populated by the black-box reader). -/
structure Session where
  fs : FSState
  gitCache : List (String × String)
deriving DecidableEq

/-- JS `s.substring(n)`, on the character model. -/
def strDrop (s : String) (n : Nat) : String := String.mk (s.data.drop n)

/-- JS `s.startsWith(pre)`. -/
def strStartsWith (s pre : String) : Bool := pre.data.isPrefixOf s.data

/-- `files[0].webkitRelativePath.split(slash)[0]`. -/
def firstSeg (s : String) : String :=
  match splitOnSlash s.data with
  | [] => ""
  | seg :: _ => String.mk seg

/-- The loop body of `loadFilesIntoFs` deciding where one upload entry is
written: strip the root folder name, skip empty remainders, prepend a slash
when missing.  `none` means the entry is skipped. -/
def loadPathOf (rootPfx : String) (f : UploadFile) : Option String :=
  let relativePath := strDrop f.webkitRelativePath rootPfx.length
  if relativePath = "" ∨ relativePath = "/" then none
  else some (if strStartsWith relativePath "/" then relativePath else "/" ++ relativePath)

/-- `loadFilesIntoFs(files)`: a no-op on empty input; otherwise clear the VFS
and the reader cache, then write every entry under its root-stripped absolute
path. -/
def loadFilesIntoFs (sess : Session) (files : List UploadFile) : Session :=
  match files with
  | [] => sess
  | f0 :: _ =>
    let rootPfx := firstSeg f0.webkitRelativePath
    let fs1 := files.foldl (fun acc f =>
      match loadPathOf rootPfx f with
      | none => acc
      | some path => fsWriteFile acc (some path) (.bytes f.contents)) clearFS
    { fs := fs1, gitCache := [] }

/-- The normalized keys `loadFilesIntoFs` writes, for reasoning about what a
load can leave in the store. -/
def loadedKeys (files : List UploadFile) : List String :=
  match files with
  | [] => []
  | f0 :: _ =>
    files.filterMap (fun f =>
      (loadPathOf (firstSeg f0.webkitRelativePath) f).map normalizePath)

/-! ### The repository reader, text differencer and diff data model -/

/-- Errors thrown by the black-box collaborators (JS exception messages). -/
abbrev GitErr := String

/-- The slice of a commit object the orchestrator consumes: its root tree id
(`readCommit(...).commit.tree`). -/
structure Commit where
  tree : String
deriving DecidableEq

/-- One entry of a tree object: name, type tag (the strings `blob`/`tree`),
and child object id. -/
structure TreeEntry where
  path : String
  etype : String
  oid : String
deriving DecidableEq

/-- The capability-based repository reader (`window.git`), a black box. -/
structure Git where
  resolveRef : String → Except GitErr String
  readCommit : String → Except GitErr Commit
  readTree : String → Except GitErr (List TreeEntry)
  readBlob : String → Except GitErr Bytes

/-- A hunk of a parsed unified diff. -/
structure Hunk where
  header : String
  lines : List String
deriving DecidableEq

/-- One file of the differencer's `parsePatch` output. -/
structure PatchFile where
  hunks : List Hunk
deriving DecidableEq

/-- The black-box text differencer (the `diff` library). -/
structure Differ where
  createPatch : String → String → String → String → String → String
  parsePatch : String → List PatchFile

/-- One element of `generateDiff`'s output. -/
structure FileDiffResult where
  filename : String
  status : String
  hunks : List Hunk
deriving DecidableEq

/-- The per-invocation tree index: file path to content id. -/
abbrev FileMap := List (String × String)

/-! ### The tree walker -/

/-- The body of the `for (const entry of tree)` loop inside `walkTree`,
parametrized by the recursive call `rec` used for sub-trees: blobs are
recorded at their full path, sub-trees are walked, anything else is skipped.
A throw from a sub-walk aborts the whole loop. -/
def walkEntriesWith (rec : String → String → FileMap → Except GitErr FileMap)
    (pfx : String) : List TreeEntry → FileMap → Except GitErr FileMap
  | [], acc => .ok acc
  | entry :: rest, acc =>
    let fullPath := if pfx ≠ "" then pfx ++ "/" ++ entry.path else entry.path
    if entry.etype = "blob" then
      walkEntriesWith rec pfx rest (assocSet acc fullPath entry.oid)
    else if entry.etype = "tree" then
      match rec entry.oid fullPath acc with
      | .error e => .error e
      | .ok acc2 => walkEntriesWith rec pfx rest acc2
    else walkEntriesWith rec pfx rest acc

/-- `walkTree(oid, prefix)`: read the tree object and process its entries,
accumulating the path-to-content-id map.  `fuel` bounds the recursion depth
(the JS recursion is bounded only by the host stack; running out is the
stack-overflow analogue). -/
def walkTree (git : Git) : Nat → String → String → FileMap → Except GitErr FileMap
  | 0, _, _, _ => .error "Maximum call stack size exceeded"
  | Nat.succ fuel, oid, pfx, acc =>
    match git.readTree oid with
    | .error e => .error e
    | .ok tree => walkEntriesWith (fun oid2 pfx2 acc2 => walkTree git fuel oid2 pfx2 acc2) pfx tree acc

/-- `listTreeFiles(treeOid)`: walk from the root tree with an empty prefix
and an empty map. -/
def listTreeFiles (git : Git) (fuel : Nat) (treeOid : String) : Except GitErr FileMap :=
  walkTree git fuel treeOid "" []

/-! ### The diff orchestrator -/

/-- `baseFiles[filepath] || null`: a missing or otherwise falsy (empty
string) content id becomes null. -/
def oidOrNull : Option String → Option String
  | none => none
  | some s => if s = "" then none else some s

/-- `new Set([...keys(base), ...keys(compare)])`: insertion-ordered union. -/
def unionKeys (a b : List String) : List String := (a ++ b).foldl setAdd []

/-- The status assignment of the loop: start from `modified`, switch to
`added` when the base side is null, then to `deleted` when the compare side
is null. -/
def classifyStatus (baseOid compareOid : Option String) : String :=
  let status := "modified"
  let status := if baseOid = none then "added" else status
  if compareOid = none then "deleted" else status

/-- Fetch and decode one side's text: an absent id leaves the text empty; a
present id is read with `readBlob` and decoded with the `TextDecoder`
parameter `td`; a throw is propagated (the loop then skips the path). -/
def fetchText (git : Git) (td : Bytes → String) : Option String → Except GitErr String
  | none => .ok ""
  | some oid =>
    match git.readBlob oid with
    | .error e => .error e
    | .ok blob => .ok (td blob)

/-- `isBinary`: the decoded text contains a NUL character (JS
`text.includes` of the NUL escape). -/
def isBinary (text : String) : Bool := text.data.contains '\x00'

/-- The body of the `for (const filepath of allPaths)` loop: `none` is the
JS `continue`.  Skip when the (null-collapsed) content ids agree, classify,
fetch both sides, skip on fetch failure or binary content, produce the
parsed patch's first file's hunks, and emit only when at least one hunk
came back. -/
def processPath (git : Git) (td : Bytes → String) (differ : Differ)
    (baseBranch compareBranch : String) (baseFiles compareFiles : FileMap)
    (filepath : String) : Option FileDiffResult :=
  let baseOid := oidOrNull (assocGet baseFiles filepath)
  let compareOid := oidOrNull (assocGet compareFiles filepath)
  if baseOid = compareOid then none
  else
    let status := classifyStatus baseOid compareOid
    match fetchText git td baseOid with
    | .error _ => none
    | .ok baseText =>
      match fetchText git td compareOid with
      | .error _ => none
      | .ok compareText =>
        if isBinary baseText || isBinary compareText then none
        else
          let patch := differ.createPatch filepath baseText compareText baseBranch compareBranch
          match differ.parsePatch patch with
          | [] => none
          | firstFile :: _ =>
            if 0 < firstFile.hunks.length then
              some { filename := filepath, status := status, hunks := firstFile.hunks }
            else none

/-- The reconciliation loop over the unioned path set. -/
def diffResultsFor (git : Git) (td : Bytes → String) (differ : Differ)
    (baseBranch compareBranch : String) (baseFiles compareFiles : FileMap) :
    List FileDiffResult :=
  (unionKeys (keysOf baseFiles) (keysOf compareFiles)).filterMap
    (processPath git td differ baseBranch compareBranch baseFiles compareFiles)

/-- The `try { listTreeFiles } catch { side stays empty }` wrapper. -/
def filesOrEmpty : Except GitErr FileMap → FileMap
  | .ok m => m
  | .error _ => []

/-- `generateDiff(baseBranch, compareBranch)`: falsy branch names short-
circuit to an empty result; both refs are resolved (a throw propagates);
identical commits short-circuit; both commits are read (a throw propagates);
each side's tree is walked with a failed walk collapsing to an empty file
set; finally the reconciliation loop runs. -/
def generateDiff (git : Git) (td : Bytes → String) (differ : Differ) (fuel : Nat)
    (baseBranch compareBranch : String) : Except GitErr (List FileDiffResult) :=
  if baseBranch = "" ∨ compareBranch = "" then .ok []
  else
    match git.resolveRef baseBranch with
    | .error e => .error e
    | .ok baseCommit =>
      match git.resolveRef compareBranch with
      | .error e => .error e
      | .ok compareCommit =>
        if baseCommit = compareCommit then .ok []
        else
          match git.readCommit baseCommit with
          | .error e => .error e
          | .ok baseCommitObj =>
            match git.readCommit compareCommit with
            | .error e => .error e
            | .ok compareCommitObj =>
              let baseFiles := filesOrEmpty (listTreeFiles git fuel baseCommitObj.tree)
              let compareFiles := filesOrEmpty (listTreeFiles git fuel compareCommitObj.tree)
              .ok (diffResultsFor git td differ baseBranch compareBranch baseFiles compareFiles)

/-- Reachability between tree objects through successfully read tree entries:
the targets whose read outcome the walk of the root depends on. -/
inductive Reaches (git : Git) : String → String → Prop
  | refl (oid : String) : Reaches git oid oid
  | step {a target : String} {entries : List TreeEntry} {e : TreeEntry} :
      git.readTree a = .ok entries → e ∈ entries → e.etype = "tree" →
      Reaches git e.oid target → Reaches git a target

/-! ### Sample collaborators (concrete instantiations used by witnesses) -/

/-- No two consecutive slashes anywhere. -/
def noDupSlash : List Char → Bool
  | [] => true
  | [_] => true
  | a :: b :: rest => if a = '/' ∧ b = '/' then false else noDupSlash (b :: rest)

/-- A sample `TextDecoder`: each byte as one character. -/
def td0 : Bytes → String := fun l => String.mk (l.map Char.ofNat)

/-- A sample differencer whose parse always yields one file with one hunk. -/
def differ0 : Differ :=
  { createPatch := fun _ _ _ _ _ => "patchtext"
    parsePatch := fun _ => [⟨[⟨"@@ -1 +1 @@", ["+w"]⟩]⟩] }

/-- A sample reader whose base tree `t1` is corrupt (its read throws) while
the compare tree `t2` holds one blob. -/
def git0 : Git :=
  { resolveRef := fun r =>
      if r = "main" then .ok "c1" else if r = "dev" then .ok "c2" else .error "NotFoundError"
    readCommit := fun oid =>
      if oid = "c1" then .ok ⟨"t1"⟩ else if oid = "c2" then .ok ⟨"t2"⟩ else .error "bad oid"
    readTree := fun oid =>
      if oid = "t2" then .ok [⟨"foo.txt", "blob", "b1"⟩] else .error "corrupt tree"
    readBlob := fun oid => if oid = "b1" then .ok [104, 105] else .error "bad blob" }

/-- A sample reader like `git0` but with the sides swapped: the compare tree
`t2` is corrupt (its read throws) while the base tree `t1` holds one blob. -/
def git0c : Git :=
  { resolveRef := fun r =>
      if r = "main" then .ok "c1" else if r = "dev" then .ok "c2" else .error "NotFoundError"
    readCommit := fun oid =>
      if oid = "c1" then .ok ⟨"t1"⟩ else if oid = "c2" then .ok ⟨"t2"⟩ else .error "bad oid"
    readTree := fun oid =>
      if oid = "t1" then .ok [⟨"foo.txt", "blob", "b1"⟩] else .error "corrupt tree"
    readBlob := fun oid => if oid = "b1" then .ok [104, 105] else .error "bad blob" }

/-- A sample reader where the shared path `f` has a NUL byte on the base
side and `g` exists only on the compare side. -/
def gitNul : Git :=
  { resolveRef := fun r =>
      if r = "main" then .ok "c1" else if r = "dev" then .ok "c2" else .error "NotFoundError"
    readCommit := fun oid =>
      if oid = "c1" then .ok ⟨"t1"⟩ else if oid = "c2" then .ok ⟨"t2"⟩ else .error "bad oid"
    readTree := fun oid =>
      if oid = "t1" then .ok [⟨"f", "blob", "b1"⟩]
      else if oid = "t2" then .ok [⟨"f", "blob", "b2"⟩, ⟨"g", "blob", "b3"⟩]
      else .error "bad tree"
    readBlob := fun oid =>
      if oid = "b1" then .ok [0]
      else if oid = "b2" then .ok [104]
      else if oid = "b3" then .ok [105]
      else .error "bad blob" }

/-- A sample upload: one root folder with two files. -/
def upload0 : List UploadFile :=
  [⟨"repo/a.txt", [104]⟩, ⟨"repo/b.txt", [105]⟩]

/-! ### Basic lemmas about the JS collection models -/

theorem assocGet_assocSet {α : Type} (m : List (String × α)) (k k2 : String) (v : α) :
    assocGet (assocSet m k v) k2 = if k = k2 then some v else assocGet m k2 := by
  induction m with
  | nil => by_cases h : k = k2 <;> simp [assocSet, assocGet, h]
  | cons kv rest ih =>
    obtain ⟨k3, v3⟩ := kv
    by_cases h3 : k3 = k
    · subst h3
      by_cases h : k3 = k2 <;> simp [assocSet, assocGet, h]
    · by_cases h : k3 = k2
      · subst h
        have hne : k ≠ k3 := fun h2 => h3 h2.symm
        simp [assocSet, assocGet, h3, hne]
      · simp [assocSet, assocGet, h3, h, ih]

theorem assocGet_some_mem {α : Type} (m : List (String × α)) (k : String) (v : α)
    (h : assocGet m k = some v) : (k, v) ∈ m := by
  induction m with
  | nil => simp [assocGet] at h
  | cons kv rest ih =>
    obtain ⟨k3, v3⟩ := kv
    by_cases h3 : k3 = k
    · subst h3
      simp [assocGet] at h
      simp [h]
    · simp [assocGet, h3] at h
      simp [ih h]

theorem keysOf_assocSet {α : Type} (m : List (String × α)) (k : String) (v : α) :
    keysOf (assocSet m k v) =
      if (assocGet m k).isSome then keysOf m else keysOf m ++ [k] := by
  induction m with
  | nil => simp [assocSet, assocGet, keysOf]
  | cons kv rest ih =>
    obtain ⟨k3, v3⟩ := kv
    by_cases h3 : k3 = k
    · subst h3
      simp [assocSet, assocGet, keysOf]
    · simp only [assocSet, assocGet, keysOf, List.map_cons, h3, if_false, ite_false]
      simp only [keysOf] at ih
      rw [ih]
      split <;> simp

theorem mem_keysOf_of_assocGet {α : Type} (m : List (String × α)) (k : String)
    (h : (assocGet m k).isSome = true) : k ∈ keysOf m := by
  obtain ⟨v, hv⟩ := Option.isSome_iff_exists.mp h
  exact List.mem_map.mpr ⟨(k, v), assocGet_some_mem m k v hv, rfl⟩

theorem mem_keysOf_assocSet {α : Type} (m : List (String × α)) (k k2 : String) (v : α) :
    k2 ∈ keysOf (assocSet m k v) ↔ k2 = k ∨ k2 ∈ keysOf m := by
  rw [keysOf_assocSet]
  split
  · next h =>
    constructor
    · exact Or.inr
    · rintro (rfl | h2)
      · exact mem_keysOf_of_assocGet m k2 h
      · exact h2
  · simp only [List.mem_append, List.mem_singleton]
    tauto

theorem mem_setAdd (s : List String) (x y : String) :
    y ∈ setAdd s x ↔ y ∈ s ∨ y = x := by
  by_cases h : x ∈ s
  · simp [setAdd, h]
    intro hy
    subst hy
    exact h
  · simp [setAdd, h]

theorem mem_foldl_setAdd (l : List String) (s : List String) (x : String) :
    x ∈ l.foldl setAdd s ↔ x ∈ s ∨ x ∈ l := by
  induction l generalizing s with
  | nil => simp
  | cons a rest ih =>
    simp only [List.foldl_cons, ih, mem_setAdd, List.mem_cons]
    tauto

/-! ### Lemmas about slash collapsing -/

theorem collapseChars_head (b : Char) (rest : List Char) :
    ∃ t, collapseChars (b :: rest) = b :: t := by
  induction rest generalizing b with
  | nil => exact ⟨[], rfl⟩
  | cons c r ih =>
    by_cases h : b = '/' ∧ c = '/'
    · obtain ⟨t, ht⟩ := ih c
      refine ⟨t, ?_⟩
      rw [show collapseChars (b :: c :: r) = collapseChars (c :: r) by simp [collapseChars, h], ht,
        h.1, h.2]
    · exact ⟨collapseChars (c :: r), by simp [collapseChars, h]⟩

theorem noDupSlash_collapseChars (l : List Char) : noDupSlash (collapseChars l) = true := by
  induction l with
  | nil => simp [collapseChars, noDupSlash]
  | cons a rest ih =>
    match rest with
    | [] => simp [collapseChars, noDupSlash]
    | b :: r =>
      by_cases h : a = '/' ∧ b = '/'
      · rw [show collapseChars (a :: b :: r) = collapseChars (b :: r) by simp [collapseChars, h]]
        exact ih
      · rw [show collapseChars (a :: b :: r) = a :: collapseChars (b :: r) by
          simp [collapseChars, h]]
        obtain ⟨t, ht⟩ := collapseChars_head b r
        rw [ht]
        rw [ht] at ih
        simpa [noDupSlash, h] using ih

theorem collapseChars_of_noDupSlash (l : List Char) (h : noDupSlash l = true) :
    collapseChars l = l := by
  induction l with
  | nil => rfl
  | cons a rest ih =>
    match rest with
    | [] => rfl
    | b :: r =>
      simp only [noDupSlash] at h
      split at h
      · exact absurd h (by simp)
      · next hcond =>
        rw [show collapseChars (a :: b :: r) = a :: collapseChars (b :: r) by
          simp [collapseChars, hcond]]
        rw [ih h]

theorem normalizePath_idem (s : String) :
    normalizePath (normalizePath s) = normalizePath s := by
  simp only [normalizePath]
  rw [collapseChars_of_noDupSlash _ (noDupSlash_collapseChars s.data)]

/-! ### C5 and C6: the read/write contract of the VFS -/

/-- C5: writing a byte sequence at a path stores it so that a read of the
same path — equivalently of its normalized form, since normalization is
idempotent — returns exactly the written bytes. -/
theorem c5_write_read_roundtrip (td : Bytes → String) (st : FSState) (p : String)
    (data : Bytes) :
    fsReadFile td (fsWriteFile st (some p) (.bytes data)) (some p) none
        = .ok (.bytes data) ∧
    fsReadFile td (fsWriteFile st (some p) (.bytes data)) (some (normalizePath p)) none
        = .ok (.bytes data) := by
  constructor <;>
    simp [fsReadFile, fsWriteFile, writeDataBytes, assocGet_assocSet, normalizePath_idem]

/-- C6: `readFile` fails exactly when the path is the JS `undefined`/`null`
(modelled `none`) or its normalized form is absent from the content store,
and every error it produces carries the ENOENT code — no other error kind is
thrown for any input. -/
theorem c6_read_enoent_iff (td : Bytes → String) (st : FSState) (path : Option String)
    (opts : Option String) :
    (∀ e, fsReadFile td st path opts = .error e → e.code = "ENOENT") ∧
    ((∃ e, fsReadFile td st path opts = .error e) ↔
      (path = none ∨ ∃ p, path = some p ∧ assocGet st.files (normalizePath p) = none)) := by
  cases path with
  | none => simp [fsReadFile]
  | some p =>
    cases hget : assocGet st.files (normalizePath p) with
    | none => simp [fsReadFile, hget]
    | some data =>
      by_cases ho : opts = some "utf8" <;> simp [fsReadFile, hget, ho]

/-- Witness for C6: reading an undefined path on a store holding one file
produces an error whose code is ENOENT. -/
theorem c6_read_enoent_iff_witness :
    FSError.code ⟨"ENOENT", "ENOENT: path is undefined"⟩ = "ENOENT" :=
  (c6_read_enoent_iff td0 (fsWriteFile initFS (some "/a.txt") (.bytes [1])) none none).1
    ⟨"ENOENT", "ENOENT: path is undefined"⟩ rfl

/-! ### C8: what normalization `writeFile` actually performs -/

theorem data_normalizePath (s : String) : (normalizePath s).data = collapseChars s.data := rfl

/-- All stored file keys are free of duplicate slashes. -/
def keysNoDup (st : FSState) : Prop :=
  ∀ k ∈ keysOf st.files, noDupSlash k.data = true

theorem keysNoDup_applyFSOp (st : FSState) (op : FSOp) (h : keysNoDup st) :
    keysNoDup (applyFSOp st op) := by
  cases op with
  | mkdir p => cases p <;> exact h
  | write p d =>
    cases p with
    | none => exact h
    | some q =>
      intro k hk
      rcases (mem_keysOf_assocSet st.files (normalizePath q) k (writeDataBytes d)).mp hk with
        rfl | hk2
      · rw [data_normalizePath]
        exact noDupSlash_collapseChars _
      · exact h k hk2

theorem keysNoDup_runOps_aux (ops : List FSOp) :
    ∀ st, keysNoDup st → keysNoDup (runOps st ops) := by
  induction ops with
  | nil => exact fun st h => h
  | cons op rest ih => exact fun st h => ih (applyFSOp st op) (keysNoDup_applyFSOp st op h)

/-- C8 counterexample: a write of the path slash-a-slash-b-slash stores its
bytes under a key that keeps the trailing slash, so a stored file key with a
non-root trailing slash is reachable — refuting the claim that `writeFile`
strips trailing slashes. -/
theorem c8_counterexample :
    keysOf (fsWriteFile initFS (some "/a/b/") (.bytes [7])).files = ["/a/b/"] ∧
    "/a/b/".data.getLast? = some '/' ∧ "/a/b/" ≠ "/" := by
  refine ⟨rfl, rfl, by decide⟩

/-- C8 (amended): `writeFile` stores the bytes under the duplicate-slash-
collapsed form of the path, so after any sequence of write/mkdir operations
no stored file key contains a duplicate slash; trailing slashes, however,
are preserved as given. -/
theorem c8_amended_write_normalization :
    (∀ st p data, assocGet (fsWriteFile st (some p) data).files (normalizePath p)
        = some (writeDataBytes data)) ∧
    (∀ ops, ∀ k ∈ keysOf (runOps initFS ops).files, noDupSlash k.data = true) := by
  constructor
  · intro st p data
    simp [fsWriteFile, assocGet_assocSet]
  · intro ops k hk
    refine keysNoDup_runOps_aux ops initFS ?_ k hk
    intro k2 hk2
    simp [initFS, keysOf] at hk2

/-- Witness for C8 (amended): a duplicate-slash write lands at the collapsed
key, which is duplicate-slash free. -/
theorem c8_amended_write_normalization_witness :
    assocGet (fsWriteFile initFS (some "//x") (.bytes [1])).files (normalizePath "//x")
        = some [1] ∧
    noDupSlash "/x".data = true :=
  ⟨c8_amended_write_normalization.1 initFS "//x" (.bytes [1]),
   c8_amended_write_normalization.2 [.write (some "//x") (.bytes [1])] "/x" (by decide)⟩

/-! ### C7: the ancestor-directory invariant -/

theorem mem_parentDirsGo (parts : List String) :
    ∀ (cur : String) (segs : List String), segs ≠ [] → segs <+: parts.dropLast →
      cur ++ joinAbs segs ∈ parentDirsGo cur parts := by
  induction parts with
  | nil =>
    intro cur segs hne hpre
    simp only [List.dropLast_nil, List.prefix_nil] at hpre
    exact absurd hpre hne
  | cons p rest ih =>
    intro cur segs hne hpre
    cases rest with
    | nil =>
      simp only [List.dropLast_single, List.prefix_nil] at hpre
      exact absurd hpre hne
    | cons r rs =>
      have hd : (p :: r :: rs).dropLast = p :: (r :: rs).dropLast := rfl
      rw [hd] at hpre
      cases segs with
      | nil => exact absurd rfl hne
      | cons s segs2 =>
        obtain ⟨t, ht⟩ := hpre
        injection ht with h1 h2
        subst h1
        show cur ++ joinAbs (s :: segs2) ∈
          (cur ++ "/" ++ s) :: parentDirsGo (cur ++ "/" ++ s) (r :: rs)
        cases segs2 with
        | nil =>
          have : cur ++ joinAbs [s] = cur ++ "/" ++ s := by
            simp [joinAbs, joinSegs, String.append_assoc]
          rw [this]
          exact List.mem_cons_self _ _
        | cons s2 rest2 =>
          have hmem := ih (cur ++ "/" ++ s) (s2 :: rest2) (by simp) ⟨t, h2⟩
          have heq : cur ++ joinAbs (s :: s2 :: rest2) =
              (cur ++ "/" ++ s) ++ joinAbs (s2 :: rest2) := by
            simp [joinAbs, joinSegs, String.append_assoc]
          rw [heq]
          exact List.mem_cons_of_mem _ hmem

theorem mem_ancestorPaths_cases (k a : String) (ha : a ∈ ancestorPaths k) :
    a = "/" ∨ a ∈ parentDirs k := by
  unfold ancestorPaths at ha
  rcases List.mem_map.mp ha with ⟨segs, hsegs, rfl⟩
  have hpre : segs <+: (pathSegments k).dropLast := (List.mem_inits _ _).mp hsegs
  cases segs with
  | nil => exact Or.inl rfl
  | cons s rest =>
    refine Or.inr ?_
    have := mem_parentDirsGo (pathSegments k) "" (s :: rest) (by simp) hpre
    rwa [String.empty_append] at this

/-- The invariant that actually holds: the root is recorded, and all
ancestors of stored file keys are recorded. -/
def fsInv (st : FSState) : Prop :=
  "/" ∈ st.dirs ∧
  ∀ k ∈ keysOf st.files, ∀ a ∈ ancestorPaths k, a ∈ st.dirs

theorem fsInv_applyFSOp (st : FSState) (op : FSOp) (h : fsInv st) :
    fsInv (applyFSOp st op) := by
  obtain ⟨hroot, hanc⟩ := h
  cases op with
  | mkdir p =>
    cases p with
    | none => exact ⟨hroot, hanc⟩
    | some q =>
      refine ⟨(mem_setAdd _ _ _).mpr (Or.inl hroot), ?_⟩
      intro k hk a ha
      exact (mem_setAdd _ _ _).mpr (Or.inl (hanc k hk a ha))
  | write p d =>
    cases p with
    | none => exact ⟨hroot, hanc⟩
    | some q =>
      refine ⟨(mem_foldl_setAdd _ _ _).mpr (Or.inl hroot), ?_⟩
      intro k hk a ha
      rcases (mem_keysOf_assocSet st.files (normalizePath q) k (writeDataBytes d)).mp hk with
        rfl | hk2
      · rcases mem_ancestorPaths_cases _ a ha with rfl | hpd
        · exact (mem_foldl_setAdd _ _ _).mpr (Or.inl hroot)
        · exact (mem_foldl_setAdd _ _ _).mpr (Or.inr hpd)
      · exact (mem_foldl_setAdd _ _ _).mpr (Or.inl (hanc k hk2 a ha))

theorem fsInv_runOps_aux (ops : List FSOp) :
    ∀ st, fsInv st → fsInv (runOps st ops) := by
  induction ops with
  | nil => exact fun st h => h
  | cons op rest ih => exact fun st h => ih (applyFSOp st op) (fsInv_applyFSOp st op h)

/-- C7 counterexample: a single `mkdir` of slash-a-slash-b records that
directory without recording its ancestor slash-a, so a recorded
VirtualDirectory can have an unrecorded ancestor — refuting the claim for
directory paths. -/
theorem c7_counterexample :
    "/a/b" ∈ (runOps initFS [.mkdir (some "/a/b")]).dirs ∧
    "/a" ∈ ancestorPaths "/a/b" ∧
    "/a" ∉ (runOps initFS [.mkdir (some "/a/b")]).dirs := by
  refine ⟨by decide, by decide, by decide⟩

/-- C7 (amended): after every sequence of write and mkdir operations from
the initial state, the root is recorded as a directory and every ancestor of
every stored VirtualFile path is recorded as a VirtualDirectory; ancestors
of paths recorded only via `mkdir` are not automatically recorded. -/
theorem c7_amended_file_ancestors (ops : List FSOp) :
    "/" ∈ (runOps initFS ops).dirs ∧
    ∀ k ∈ keysOf (runOps initFS ops).files, ∀ a ∈ ancestorPaths k,
      a ∈ (runOps initFS ops).dirs := by
  refine fsInv_runOps_aux ops initFS ⟨by decide, ?_⟩
  intro k hk
  simp [initFS, keysOf] at hk

/-- Witness for C7 (amended): after writing a doubly nested file, both the
root and the intermediate directory are recorded. -/
theorem c7_amended_file_ancestors_witness :
    "/" ∈ (runOps initFS [.write (some "/a/b/c.txt") (.bytes [1])]).dirs ∧
    "/a/b" ∈ (runOps initFS [.write (some "/a/b/c.txt") (.bytes [1])]).dirs :=
  ⟨(c7_amended_file_ancestors [.write (some "/a/b/c.txt") (.bytes [1])]).1,
   (c7_amended_file_ancestors [.write (some "/a/b/c.txt") (.bytes [1])]).2
      "/a/b/c.txt" (by decide) "/a/b" (by decide)⟩

/-! ### C9: loading a repository clears all prior state -/

theorem load_foldl_keys (rp : String) (files : List UploadFile) :
    ∀ (acc : FSState) (k : String),
      assocGet ((files.foldl (fun acc2 f =>
          match loadPathOf rp f with
          | none => acc2
          | some path => fsWriteFile acc2 (some path) (.bytes f.contents)) acc).files) k ≠ none →
      assocGet acc.files k ≠ none ∨
        k ∈ files.filterMap (fun f => (loadPathOf rp f).map normalizePath) := by
  induction files with
  | nil => exact fun acc k h => Or.inl h
  | cons f rest ih =>
    intro acc k h
    simp only [List.foldl_cons] at h
    cases hlp : loadPathOf rp f with
    | none =>
      rw [hlp] at h
      rcases ih acc k h with h2 | h2
      · exact Or.inl h2
      · exact Or.inr (by simp only [List.filterMap_cons, hlp]; exact h2)
    | some path =>
      rw [hlp] at h
      rcases ih (fsWriteFile acc (some path) (.bytes f.contents)) k h with h2 | h2
      · by_cases hk : normalizePath path = k
        · refine Or.inr ?_
          simp only [List.filterMap_cons, hlp, Option.map_some']
          rw [← hk]
          exact List.mem_cons_self _ _
        · refine Or.inl ?_
          simp only [fsWriteFile] at h2
          rwa [assocGet_assocSet, if_neg hk] at h2
      · refine Or.inr ?_
        simp only [List.filterMap_cons, hlp, Option.map_some']
        exact List.mem_cons_of_mem _ h2

/-- C9: loading a nonempty file set yields a session independent of all
prior session state (the VFS is rebuilt from the cleared store and the
reader cache is reset to empty), so any path not written by the new load —
in particular any path unique to a previously loaded repository — reads as
ENOENT afterwards. -/
theorem c9_load_clears_prior_state (sess sess2 : Session) (files : List UploadFile)
    (td : Bytes → String) (p : String)
    (hne : files ≠ [])
    (hp : normalizePath p ∉ loadedKeys files) :
    loadFilesIntoFs sess files = loadFilesIntoFs sess2 files ∧
    (loadFilesIntoFs sess files).gitCache = [] ∧
    ∃ e, fsReadFile td (loadFilesIntoFs sess files).fs (some p) none = .error e ∧
      e.code = "ENOENT" := by
  cases files with
  | nil => exact absurd rfl hne
  | cons f0 rest =>
    refine ⟨rfl, rfl, ?_⟩
    have hnone : assocGet (loadFilesIntoFs sess (f0 :: rest)).fs.files (normalizePath p)
        = none := by
      by_contra hsome
      rcases load_foldl_keys (firstSeg f0.webkitRelativePath) (f0 :: rest) clearFS
          (normalizePath p) hsome with h2 | h2
      · exact h2 rfl
      · exact hp h2
    refine ⟨⟨"ENOENT", "ENOENT: no such file or directory, open " ++ normalizePath p⟩, ?_, rfl⟩
    simp only [fsReadFile, hnone]

/-- Witness for C9: loading the sample upload over two different prior
sessions gives identical results, with an empty cache and an ENOENT read of
a path only the old session had. -/
theorem c9_load_clears_prior_state_witness :
    loadFilesIntoFs ⟨initFS, [("commit", "c9")]⟩ upload0 =
      loadFilesIntoFs ⟨fsWriteFile initFS (some "/old.txt") (.bytes [1]), []⟩ upload0 ∧
    (loadFilesIntoFs ⟨initFS, [("commit", "c9")]⟩ upload0).gitCache = [] :=
  ⟨(c9_load_clears_prior_state ⟨initFS, [("commit", "c9")]⟩
      ⟨fsWriteFile initFS (some "/old.txt") (.bytes [1]), []⟩ upload0 td0 "/old.txt"
      (by decide) (by decide)).1,
   (c9_load_clears_prior_state ⟨initFS, [("commit", "c9")]⟩
      ⟨fsWriteFile initFS (some "/old.txt") (.bytes [1]), []⟩ upload0 td0 "/old.txt"
      (by decide) (by decide)).2.1⟩

/-! ### C2 and C10: the short-circuits of `generateDiff` -/

/-- C2: when both branch names resolve to the identical commit id,
`generateDiff` returns the empty sequence.  The reader's `readCommit`,
`readTree` and `readBlob` fields are universally quantified, so the result
provably does not depend on them: no commit is read and no tree walked. -/
theorem c2_identical_commits_empty (git : Git) (td : Bytes → String) (differ : Differ)
    (fuel : Nat) (b c oid : String)
    (h1 : git.resolveRef b = .ok oid) (h2 : git.resolveRef c = .ok oid) :
    generateDiff git td differ fuel b c = .ok [] := by
  unfold generateDiff
  by_cases hbc : b = "" ∨ c = ""
  · rw [if_pos hbc]
  · rw [if_neg hbc, h1, h2]
    simp

/-- Witness for C2: the same branch name twice resolves to the same commit
and diffs to the empty sequence (on a reader whose base tree would even fail
to read). -/
theorem c2_identical_commits_empty_witness :
    generateDiff git0 td0 differ0 5 "main" "main" = .ok [] :=
  c2_identical_commits_empty git0 td0 differ0 5 "main" "main" "c1" rfl rfl

/-- C10: an empty (JS-falsy) branch name on either side makes `generateDiff`
return the empty sequence.  The reader is universally quantified — even one
whose `resolveRef` always throws — so no ref resolution is attempted and no
error is raised. -/
theorem c10_falsy_branch_empty (git : Git) (td : Bytes → String) (differ : Differ)
    (fuel : Nat) (b c : String) (h : b = "" ∨ c = "") :
    generateDiff git td differ fuel b c = .ok [] := by
  unfold generateDiff
  rw [if_pos h]

/-- Witness for C10: an empty base branch name yields the empty sequence on
a reader that cannot even resolve the other name. -/
theorem c10_falsy_branch_empty_witness :
    generateDiff git0 td0 differ0 5 "" "nosuch" = .ok [] :=
  c10_falsy_branch_empty git0 td0 differ0 5 "" "nosuch" (Or.inl rfl)

/-! ### C1: reconciliation of the two tree indexes -/

theorem processPath_none_of_same_oid (git : Git) (td : Bytes → String) (differ : Differ)
    (bb cb : String) (bf cf : FileMap) (p : String)
    (h : oidOrNull (assocGet bf p) = oidOrNull (assocGet cf p)) :
    processPath git td differ bb cb bf cf p = none := by
  simp [processPath, h]

theorem processPath_some_spec (git : Git) (td : Bytes → String) (differ : Differ)
    (bb cb : String) (bf cf : FileMap) (p : String) (r : FileDiffResult)
    (h : processPath git td differ bb cb bf cf p = some r) :
    r.filename = p ∧
    r.status = classifyStatus (oidOrNull (assocGet bf p)) (oidOrNull (assocGet cf p)) := by
  simp only [processPath] at h
  split at h
  · exact absurd h (by simp)
  · split at h
    · exact absurd h (by simp)
    · split at h
      · exact absurd h (by simp)
      · split at h
        · exact absurd h (by simp)
        · split at h
          · exact absurd h (by simp)
          · split at h
            · injection h with h2
              subst h2
              exact ⟨rfl, rfl⟩
            · exact absurd h (by simp)

/-- C1: for any two tree indexes, the considered path set is exactly the
union of their key sets; a path whose null-collapsed content ids agree on
both sides is skipped; every emitted result for a path carries that path and
the status computed by the classification, which assigns `added` when the
base side is null, `deleted` when the compare side is null, and `modified`
when both are present but different; and for indexes whose content ids are
nonempty strings (as digests are) the null-collapse is exactly
absence-as-null. -/
theorem c1_reconciliation (git : Git) (td : Bytes → String) (differ : Differ)
    (bb cb : String) (bf cf : FileMap) (p : String) :
    (p ∈ unionKeys (keysOf bf) (keysOf cf) ↔ p ∈ keysOf bf ∨ p ∈ keysOf cf) ∧
    (oidOrNull (assocGet bf p) = oidOrNull (assocGet cf p) →
      processPath git td differ bb cb bf cf p = none) ∧
    (∀ r, processPath git td differ bb cb bf cf p = some r →
      r.filename = p ∧
      r.status = classifyStatus (oidOrNull (assocGet bf p)) (oidOrNull (assocGet cf p))) ∧
    (∀ bo co : Option String, bo ≠ co →
      ((bo = none → classifyStatus bo co = "added") ∧
       (co = none → classifyStatus bo co = "deleted") ∧
       (bo ≠ none → co ≠ none → classifyStatus bo co = "modified"))) ∧
    ((∀ kv ∈ bf, kv.2 ≠ "") → oidOrNull (assocGet bf p) = assocGet bf p) := by
  refine ⟨?_, ?_, ?_, ?_, ?_⟩
  · rw [unionKeys, mem_foldl_setAdd]
    simp
  · exact processPath_none_of_same_oid git td differ bb cb bf cf p
  · exact fun r => processPath_some_spec git td differ bb cb bf cf p r
  · intro bo co hne
    cases bo with
    | none =>
      cases co with
      | none => exact absurd rfl hne
      | some v => simp [classifyStatus]
    | some v =>
      cases co with
      | none => simp [classifyStatus]
      | some w => simp [classifyStatus]
  · intro hb
    cases hg : assocGet bf p with
    | none => rfl
    | some v =>
      have hv : v ≠ "" := hb (p, v) (assocGet_some_mem bf p v hg)
      simp [oidOrNull, hv]

/-- Witness for C1 on concrete two-element indexes. -/
theorem c1_reconciliation_witness :
    ("a.txt" ∈ unionKeys (keysOf [("a.txt", "h1")]) (keysOf [("b.txt", "h2")])) ∧
    processPath gitNul td0 differ0 "main" "dev" [("a.txt", "h1")] [("a.txt", "h1")]
        "a.txt" = none ∧
    classifyStatus none (some "h2") = "added" ∧
    classifyStatus (some "h1") none = "deleted" ∧
    classifyStatus (some "h1") (some "h2") = "modified" ∧
    oidOrNull (assocGet [("a.txt", "h1")] "a.txt") = assocGet [("a.txt", "h1")] "a.txt" :=
  ⟨(c1_reconciliation gitNul td0 differ0 "main" "dev" [("a.txt", "h1")] [("b.txt", "h2")]
      "a.txt").1.mpr (Or.inl (by decide)),
   (c1_reconciliation gitNul td0 differ0 "main" "dev" [("a.txt", "h1")] [("a.txt", "h1")]
      "a.txt").2.1 rfl,
   ((c1_reconciliation gitNul td0 differ0 "main" "dev" [("a.txt", "h1")] [("b.txt", "h2")]
      "a.txt").2.2.2.1 none (some "h2") (by decide)).1 rfl,
   ((c1_reconciliation gitNul td0 differ0 "main" "dev" [("a.txt", "h1")] [("b.txt", "h2")]
      "a.txt").2.2.2.1 (some "h1") none (by decide)).2.1 rfl,
   ((c1_reconciliation gitNul td0 differ0 "main" "dev" [("a.txt", "h1")] [("b.txt", "h2")]
      "a.txt").2.2.2.1 (some "h1") (some "h2") (by decide)).2.2 (by decide) (by decide),
   (c1_reconciliation gitNul td0 differ0 "main" "dev" [("a.txt", "h1")] [("b.txt", "h2")]
      "a.txt").2.2.2.2 (by decide)⟩

/-! ### C4: binary (NUL-containing) paths never appear in the output -/

theorem processPath_none_of_binary (git : Git) (td : Bytes → String) (differ : Differ)
    (bb cb : String) (bf cf : FileMap) (p : String) (bt ct : String)
    (hbt : fetchText git td (oidOrNull (assocGet bf p)) = .ok bt)
    (hct : fetchText git td (oidOrNull (assocGet cf p)) = .ok ct)
    (hnul : isBinary bt = true ∨ isBinary ct = true) :
    processPath git td differ bb cb bf cf p = none := by
  by_cases hsame : oidOrNull (assocGet bf p) = oidOrNull (assocGet cf p)
  · exact processPath_none_of_same_oid git td differ bb cb bf cf p hsame
  · simp only [processPath, if_neg hsame, hbt, hct]
    have hb2 : (isBinary bt || isBinary ct) = true := by
      rcases hnul with h | h <;> simp [h]
    simp [hb2]

theorem generateDiff_ok_elim (git : Git) (td : Bytes → String) (differ : Differ)
    (fuel : Nat) (b c bOid cOid : String) (bCo cCo : Commit)
    (rs : List FileDiffResult)
    (hb : b ≠ "") (hc : c ≠ "")
    (h1 : git.resolveRef b = .ok bOid) (h2 : git.resolveRef c = .ok cOid)
    (hne : bOid ≠ cOid)
    (h3 : git.readCommit bOid = .ok bCo) (h4 : git.readCommit cOid = .ok cCo)
    (hgen : generateDiff git td differ fuel b c = .ok rs) :
    rs = diffResultsFor git td differ b c
      (filesOrEmpty (listTreeFiles git fuel bCo.tree))
      (filesOrEmpty (listTreeFiles git fuel cCo.tree)) := by
  unfold generateDiff at hgen
  rw [if_neg (by simp [hb, hc]), h1, h2] at hgen
  simp only [if_neg hne, h3, h4] at hgen
  exact (Except.ok.inj hgen).symm

/-- C4: on a changed path whose fetched and decoded content contains a NUL
character on either side, `generateDiff` emits no `FileDiffResult` with that
filename, even though the content ids differ. -/
theorem c4_nul_path_omitted (git : Git) (td : Bytes → String) (differ : Differ)
    (fuel : Nat) (b c bOid cOid : String) (bCo cCo : Commit)
    (rs : List FileDiffResult) (p : String) (bt ct : String)
    (hb : b ≠ "") (hc : c ≠ "")
    (h1 : git.resolveRef b = .ok bOid) (h2 : git.resolveRef c = .ok cOid)
    (hne : bOid ≠ cOid)
    (h3 : git.readCommit bOid = .ok bCo) (h4 : git.readCommit cOid = .ok cCo)
    (hgen : generateDiff git td differ fuel b c = .ok rs)
    (hbt : fetchText git td (oidOrNull (assocGet
      (filesOrEmpty (listTreeFiles git fuel bCo.tree)) p)) = .ok bt)
    (hct : fetchText git td (oidOrNull (assocGet
      (filesOrEmpty (listTreeFiles git fuel cCo.tree)) p)) = .ok ct)
    (hnul : isBinary bt = true ∨ isBinary ct = true) :
    ∀ r ∈ rs, r.filename ≠ p := by
  intro r hr hfn
  rw [generateDiff_ok_elim git td differ fuel b c bOid cOid bCo cCo rs
    hb hc h1 h2 hne h3 h4 hgen] at hr
  rcases List.mem_filterMap.mp hr with ⟨q, _, hproc⟩
  have hq := (processPath_some_spec git td differ b c _ _ q r hproc).1
  rw [← hq, hfn] at hproc
  rw [processPath_none_of_binary git td differ b c _ _ p bt ct hbt hct hnul] at hproc
  exact Option.noConfusion hproc

/-- Witness for C4: with the sample reader `gitNul`, the shared path `f` has
a NUL byte on the base side; the only emitted result is for `g`, and the
theorem shows that result cannot be for `f`. -/
theorem c4_nul_path_omitted_witness :
    FileDiffResult.filename ⟨"g", "added", [⟨"@@ -1 +1 @@", ["+w"]⟩]⟩ ≠ "f" :=
  c4_nul_path_omitted gitNul td0 differ0 5 "main" "dev" "c1" "c2" ⟨"t1"⟩ ⟨"t2"⟩
    [⟨"g", "added", [⟨"@@ -1 +1 @@", ["+w"]⟩]⟩] "f" (td0 [0]) "h"
    (by decide) (by decide) rfl rfl (by decide) rfl rfl rfl rfl rfl (Or.inl (by decide))
    ⟨"g", "added", [⟨"@@ -1 +1 @@", ["+w"]⟩]⟩ (List.mem_cons_self _ _)

/-! ### C3: a failed walk collapses that side to the empty file set -/

theorem exists_error_of_isOk_false {α : Type} (x : Except GitErr α)
    (h : x.isOk = false) : ∃ e, x = .error e := by
  cases x with
  | error e => exact ⟨e, rfl⟩
  | ok v => simp [Except.isOk, Except.toBool] at h

theorem walkEntriesWith_isOk_false
    (rec : String → String → FileMap → Except GitErr FileMap)
    (e : TreeEntry) (het : e.etype = "tree")
    (hfail : ∀ p2 a2, (rec e.oid p2 a2).isOk = false) :
    ∀ (entries : List TreeEntry), e ∈ entries → ∀ (pfx : String) (acc : FileMap),
      (walkEntriesWith rec pfx entries acc).isOk = false := by
  intro entries
  induction entries with
  | nil => intro h; cases h
  | cons e2 rest ih =>
    intro hmem pfx acc
    rcases List.mem_cons.mp hmem with heq | hmem2
    · subst heq
      simp only [walkEntriesWith, het]
      rw [if_pos trivial]
      cases hcase : rec e.oid (if pfx ≠ "" then pfx ++ "/" ++ e.path else e.path) acc with
      | error e3 => rfl
      | ok acc2 =>
        have := hfail (if pfx ≠ "" then pfx ++ "/" ++ e.path else e.path) acc
        rw [hcase] at this
        simp [Except.isOk, Except.toBool] at this
    · by_cases hb2 : e2.etype = "blob"
      · simp only [walkEntriesWith, if_pos hb2]
        exact ih hmem2 pfx _
      · by_cases ht2 : e2.etype = "tree"
        · simp only [walkEntriesWith, if_neg hb2, if_pos ht2]
          cases hcase : rec e2.oid (if pfx ≠ "" then pfx ++ "/" ++ e2.path else e2.path) acc with
          | error e3 => rfl
          | ok acc2 => exact ih hmem2 pfx acc2
        · simp only [walkEntriesWith, if_neg hb2, if_neg ht2]
          exact ih hmem2 pfx acc

theorem walkTree_isOk_false_of_reaches (git : Git) (msg : GitErr) :
    ∀ {root t : String}, Reaches git root t → git.readTree t = .error msg →
      ∀ (fuel : Nat) (pfx : String) (acc : FileMap),
        (walkTree git fuel root pfx acc).isOk = false := by
  intro root t hr
  induction hr with
  | refl oid =>
    intro hf fuel pfx acc
    cases fuel with
    | zero => rfl
    | succ f => simp [walkTree, hf, Except.isOk, Except.toBool]
  | step hread hmem het _ ih =>
    intro hf fuel pfx acc
    cases fuel with
    | zero => rfl
    | succ f =>
      simp only [walkTree, hread]
      exact walkEntriesWith_isOk_false _ _ het (fun p2 a2 => ih hf f p2 a2) _ hmem pfx acc

/-- C3: when the tree read throws for any tree object reachable from a
commit's root tree, the whole walk of that commit aborts with an error, and
`generateDiff` proceeds with that side's file set equal to the empty map — a
partially populated mapping is never used in reconciliation.  Both sides are
covered: the first conjunct settles a failure in the base commit's walk, the
second the symmetric failure in the compare commit's walk. -/
theorem c3_walk_failure_empties_side (git : Git) (td : Bytes → String) (differ : Differ)
    (fuel : Nat) (b c bOid cOid : String) (bCo cCo : Commit) (t : String) (msg : GitErr)
    (hb : b ≠ "") (hc : c ≠ "")
    (h1 : git.resolveRef b = .ok bOid) (h2 : git.resolveRef c = .ok cOid)
    (hne : bOid ≠ cOid)
    (h3 : git.readCommit bOid = .ok bCo) (h4 : git.readCommit cOid = .ok cCo) :
    (Reaches git bCo.tree t → git.readTree t = .error msg →
      (listTreeFiles git fuel bCo.tree).isOk = false ∧
      generateDiff git td differ fuel b c =
        .ok (diffResultsFor git td differ b c []
          (filesOrEmpty (listTreeFiles git fuel cCo.tree)))) ∧
    (Reaches git cCo.tree t → git.readTree t = .error msg →
      (listTreeFiles git fuel cCo.tree).isOk = false ∧
      generateDiff git td differ fuel b c =
        .ok (diffResultsFor git td differ b c
          (filesOrEmpty (listTreeFiles git fuel bCo.tree)) [])) := by
  constructor
  · intro hreach hfail
    have hwalk := walkTree_isOk_false_of_reaches git msg hreach hfail fuel "" []
    refine ⟨hwalk, ?_⟩
    obtain ⟨e, he⟩ := exists_error_of_isOk_false _ hwalk
    unfold generateDiff
    rw [if_neg (by simp [hb, hc]), h1, h2]
    simp only [if_neg hne, h3, h4, listTreeFiles, he, filesOrEmpty]
  · intro hreach hfail
    have hwalk := walkTree_isOk_false_of_reaches git msg hreach hfail fuel "" []
    refine ⟨hwalk, ?_⟩
    obtain ⟨e, he⟩ := exists_error_of_isOk_false _ hwalk
    unfold generateDiff
    rw [if_neg (by simp [hb, hc]), h1, h2]
    simp only [if_neg hne, h3, h4, listTreeFiles, he, filesOrEmpty]

/-- Witness for C3, one run per side: with `git0`, whose base tree `t1` is
corrupt, the diff equals the reconciliation of an empty base map against the
compare side; with `git0c`, whose compare tree `t2` is corrupt, it equals
the reconciliation of the base side against an empty compare map. -/
theorem c3_walk_failure_empties_side_witness :
    (generateDiff git0 td0 differ0 5 "main" "dev" =
      .ok (diffResultsFor git0 td0 differ0 "main" "dev" []
        (filesOrEmpty (listTreeFiles git0 5 (Commit.tree ⟨"t2"⟩))))) ∧
    (generateDiff git0c td0 differ0 5 "main" "dev" =
      .ok (diffResultsFor git0c td0 differ0 "main" "dev"
        (filesOrEmpty (listTreeFiles git0c 5 (Commit.tree ⟨"t1"⟩))) [])) :=
  ⟨((c3_walk_failure_empties_side git0 td0 differ0 5 "main" "dev" "c1" "c2" ⟨"t1"⟩ ⟨"t2"⟩
      "t1" "corrupt tree" (by decide) (by decide) rfl rfl (by decide) rfl rfl).1
      (Reaches.refl "t1") rfl).2,
   ((c3_walk_failure_empties_side git0c td0 differ0 5 "main" "dev" "c1" "c2" ⟨"t1"⟩ ⟨"t2"⟩
      "t2" "corrupt tree" (by decide) (by decide) rfl rfl (by decide) rfl rfl).2
      (Reaches.refl "t2") rfl).2⟩

end BranchDiff
